import Mathlib

/-!
# Verification of scratch.js

A shallow embedding of `src/scratch.js`: a chain of utility functions
(`while`, `for`, `forEach`, `reduce`, `map`, `filter`, `pluck`, `compact`)
each built on the previous one, with iteration expressed as recursion.

Modelling choices:
* JavaScript values that the library inspects are modelled by `JSVal`
  (null, undefined, booleans, integers, strings, and record-like objects).
* A thrown JavaScript value is a `JSException`: either a thrown string
  primitive (`strVal`, as in `throw 'message'`) or a `TypeError` instance
  (`typeError`, as raised by the runtime for property access on
  null/undefined).
* Caller-supplied callbacks may throw, so they return `Except JSException`.
  Closure state mutated by a callback is threaded explicitly as a state
  value `σ`; a callback of the source receiving an element becomes
  `σ → α → Except JSException σ`.
* The recursive inner `loop` of `scratch.while` is general recursion on an
  arbitrary condition, so it is embedded with explicit fuel; running out of
  fuel yields `none` (the stack-exhaustion limit of the source), while
  normal termination yields `some` of the final closure state.
* The sequence argument is an immutable `List`; out-of-bounds reads give a
  default element (never reached while the index stays below the length).
-/

/-- A JavaScript value, as far as scratch.js inspects values: `null`,
`undefined`, booleans, (integer) numbers, strings, and objects given by
their property assignments. -/
inductive JSVal where
  | null
  | undefined
  | bool (b : Bool)
  | num (n : Int)
  | str (s : String)
  | obj (fields : List (String × JSVal))
deriving Repr

instance : Inhabited JSVal := ⟨JSVal.undefined⟩

/-- A thrown JavaScript value: either a thrown string primitive
(`throw 'message'`) or a `TypeError` error object. -/
inductive JSException where
  | strVal (s : String)
  | typeError (msg : String)
deriving Repr, DecidableEq

/-- Whether a thrown value is a `TypeError`-class error object (a thrown
string primitive is not). -/
def JSException.isTypeError : JSException → Bool
  | .typeError _ => true
  | .strVal _ => false

/-- JavaScript `ToBoolean` on the values of `JSVal`: `null`, `undefined`,
`false`, `0` and `""` are falsy, everything else truthy. -/
def truthy : JSVal → Bool
  | .null => false
  | .undefined => false
  | .bool b => b
  | .num n => decide (n ≠ 0)
  | .str s => decide (s ≠ "")
  | .obj _ => true

/-- JavaScript property access `element[property]`, used by `pluck`:
fails with a `TypeError` on `null`/`undefined`, returns the property of an
object (or `undefined` when absent), `length` of a string, and `undefined`
on the remaining primitives. -/
def getProp : JSVal → String → Except JSException JSVal
  | .null, p =>
      .error (.typeError ("Cannot read properties of null (reading " ++ p ++ ")"))
  | .undefined, p =>
      .error (.typeError ("Cannot read properties of undefined (reading " ++ p ++ ")"))
  | .obj fields, p => .ok ((fields.lookup p).getD .undefined)
  | .str s, p => if p = "length" then .ok (.num s.length) else .ok .undefined
  | .bool _, _ => .ok .undefined
  | .num _, _ => .ok .undefined

/-- An argument of `scratch.while` in condition position: either an actual
function (over closure state `σ`, returning a JS value tested for
truthiness) or a non-callable value. -/
inductive FnArg (σ : Type _) where
  | fn (f : σ → Except JSException JSVal)
  | nonFn (v : JSVal)

namespace scratch

/-- The inner recursive `function loop()` of `scratch.while`:
`if (!condition()) { return; } fn(); loop();`, with explicit fuel.
`.ok none` is running out of fuel, `.ok (some s)` is normal termination
with final closure state `s`. -/
def loop (condition : σ → Except JSException JSVal)
    (fn : σ → Except JSException σ) : Nat → σ → Except JSException (Option σ)
  | 0, _ => .ok none
  | fuel + 1, s =>
    match condition s with
    | .error e => .error e
    | .ok c =>
      if truthy c then
        match fn s with
        | .error e => .error e
        | .ok s' => loop condition fn fuel s'
      else
        .ok (some s)

/-- `scratch.while(condition, fn)`: first the callability check on
`condition` — `throw 'Remember, you need to pass a FUNCTION to
scratch.while!'` when it is not a function — then the recursive loop. -/
def whileLoop (condition : FnArg σ) (fn : σ → Except JSException σ)
    (fuel : Nat) (s : σ) : Except JSException (Option σ) :=
  match condition with
  | .nonFn _ =>
      .error (.strVal "Remember, you need to pass a FUNCTION to scratch.while!")
  | .fn cond => loop cond fn fuel s

/-- The anonymous body `function() { fn(); update(); }` that
`scratch.for` hands to `scratch.while`: run `fn`, then `update`. -/
def composeBody (fn update : σ → Except JSException σ) :
    σ → Except JSException σ :=
  fun s1 =>
    match fn s1 with
    | .error e => .error e
    | .ok s2 => update s2

/-- `scratch.for(init, condition, update, fn)`: run `init()`, then
`scratch.while(condition, function() { fn(); update(); })`. -/
def forLoop (init : σ → Except JSException σ) (condition : FnArg σ)
    (update : σ → Except JSException σ) (fn : σ → Except JSException σ)
    (fuel : Nat) (s : σ) : Except JSException (Option σ) :=
  match init s with
  | .error e => .error e
  | .ok s0 => whileLoop condition (composeBody fn update) fuel s0

/-- `scratch.forEach(array, fn)`: a `scratch.for` over an index `i` with
init `i = 0`, condition `i < array.length`, update `++i`, and body
`fn(array[i])`. The index is the first component of the loop state, the
callback's closure state the second; the result is projected back onto
the callback's state. -/
def forEach [Inhabited α] (array : List α)
    (fn : σ → α → Except JSException σ) (fuel : Nat) (s : σ) :
    Except JSException (Option σ) :=
  Except.map (Option.map Prod.snd)
    (forLoop (σ := Nat × σ)
      (fun p => .ok (0, p.2))
      (.fn (fun p => .ok (.bool (decide (p.1 < array.length)))))
      (fun p => .ok (p.1 + 1, p.2))
      (fun p =>
        match fn p.2 (array.getD p.1 default) with
        | .error e => .error e
        | .ok s' => .ok (p.1, s'))
      fuel (0, s))

/-- `scratch.reduce(array, aggregator, memo)`: a `forEach` whose callback
replaces the `memo` closure variable by `aggregator(memo, element)`; the
final `memo` is returned. -/
def reduce [Inhabited α] (array : List α)
    (aggregator : β → α → Except JSException β) (memo : β) (fuel : Nat) :
    Except JSException (Option β) :=
  forEach array (fun m element => aggregator m element) fuel memo

/-- `scratch.map(array, selector)`: `reduce` with the aggregator that
pushes `selector(element)` onto the result array and returns it, starting
from a fresh empty array. -/
def map [Inhabited α] (array : List α)
    (selector : α → Except JSException β) (fuel : Nat) :
    Except JSException (Option (List β)) :=
  reduce array
    (fun result element =>
      match selector element with
      | .error e => .error e
      | .ok v => .ok (result ++ [v]))
    [] fuel

/-- `scratch.filter(array, predicate)`: `reduce` with the aggregator that
pushes `element` onto the result array when `predicate(element)` is
truthy, starting from a fresh empty array. -/
def filter [Inhabited α] (array : List α)
    (predicate : α → Except JSException JSVal) (fuel : Nat) :
    Except JSException (Option (List α)) :=
  reduce array
    (fun result element =>
      match predicate element with
      | .error e => .error e
      | .ok b => .ok (if truthy b then result ++ [element] else result))
    [] fuel

/-- `scratch.pluck(array, property)`:
`scratch.map(array, function(element) { return element[property]; })`. -/
def pluck (array : List JSVal) (property : String) (fuel : Nat) :
    Except JSException (Option (List JSVal)) :=
  map array (fun element => getProp element property) fuel

/-- The JavaScript loose comparison `element != null`, the predicate of
`scratch.compact`: false exactly on `null` and `undefined`. -/
def looseNeqNull : JSVal → Bool
  | .null => false
  | .undefined => false
  | _ => true

/-- `scratch.compact(array)`:
`scratch.filter(array, function(element) { return element != null; })`. -/
def compact (array : List JSVal) (fuel : Nat) :
    Except JSException (Option (List JSVal)) :=
  filter array (fun element => .ok (.bool (looseNeqNull element))) fuel

end scratch

/-! ## Proof infrastructure

`feCond` and `feBody` name the exact condition and composed body that
`scratch.forEach` hands to the recursive loop (after `scratch.forLoop`
composes the per-element callback with the index update), so that the
loop can be reasoned about by induction on fuel with a general start
index. -/

/-- The loop condition of `scratch.forEach`: `i < array.length`,
re-evaluated on every iteration over the loop state `(i, closure)`. -/
def feCond (array : List α) : Nat × σ → Except JSException JSVal :=
  fun p => .ok (.bool (decide (p.1 < array.length)))

/-- The composed loop body of `scratch.forEach`: first the `forEach`
body `fn(array[i])` (updating the callback's closure state), then the
`for` update `++i`. -/
def feBody [Inhabited α] (array : List α)
    (fn : σ → α → Except JSException σ) :
    Nat × σ → Except JSException (Nat × σ) :=
  scratch.composeBody
    (fun p =>
      match fn p.2 (array.getD p.1 default) with
      | .error e => .error e
      | .ok s' => .ok (p.1, s'))
    (fun p => .ok (p.1 + 1, p.2))

/-- The specification's description of Pluck, written from its words:
`Map(sequence, element => element[propertyName])`. -/
def pluckSpec (array : List JSVal) (property : String) (fuel : Nat) :
    Except JSException (Option (List JSVal)) :=
  scratch.map array (fun element => getProp element property) fuel

/-! ## A heap model for the accumulator of Map and Filter

In JavaScript the `[]` that Map and Filter pass to Reduce is a fresh
array object, and their aggregators run `result.push(...)`, which
mutates that array object in place and returns the same reference. To
state claims about mutation versus replacement, arrays are modelled as
addresses into a heap (a list of array contents), and one aggregator
step maps a pair (heap, accumulator reference) and an element to the
next pair. -/

/-- A heap of JavaScript arrays: the array at address `r` has contents
`h.getD r []`. -/
abbrev Heap (β : Type _) := List (List β)

/-- `a.push(x)` on the array at address `r`: mutates the heap in place
at `r`. -/
def pushAt (h : Heap β) (r : Nat) (x : β) : Heap β :=
  h.set r (h.getD r [] ++ [x])

/-- One step of the aggregator Map hands to Reduce, in the heap model:
`result.push(selector(element)); return result;` — the heap is updated
at the accumulator's address and the same reference is returned. -/
def mapAggregator (selector : α → β) (acc : Heap β × Nat) (element : α) :
    Heap β × Nat :=
  (pushAt acc.1 acc.2 (selector element), acc.2)

/-- One step of the aggregator Filter hands to Reduce, in the heap
model: `if (predicate(element)) { result.push(element); } return
result;`. -/
def filterAggregator (predicate : α → Bool) (acc : Heap α × Nat)
    (element : α) : Heap α × Nat :=
  (if predicate element then pushAt acc.1 acc.2 element else acc.1, acc.2)

/-! ## Helper lemmas -/

/-- `scratch.forEach` is the recursive loop over `feCond`/`feBody`,
started at index `0`, with the final state projected onto the
callback's closure component. -/
theorem forEach_eq_loop [Inhabited α] (array : List α)
    (fn : σ → α → Except JSException σ) (fuel : Nat) (s : σ) :
    scratch.forEach array fn fuel s
      = Except.map (Option.map Prod.snd)
          (scratch.loop (feCond array) (feBody array fn) fuel (0, s)) := rfl

/-- `feBody` applied: run the callback on `array[i]`, and on success
increment the index. -/
theorem feBody_apply [Inhabited α] (array : List α)
    (fn : σ → α → Except JSException σ) (p : Nat × σ) :
    feBody array fn p
      = match fn p.2 (array.getD p.1 default) with
        | .error e => Except.error e
        | .ok s' => Except.ok (p.1 + 1, s') := by
  unfold feBody scratch.composeBody
  rcases hf : fn p.2 (array.getD p.1 default) with e | t
  · dsimp only
    rw [hf]
  · dsimp only
    rw [hf]

/-- If `feBody` succeeds, the index component has been incremented. -/
theorem feBody_ok_fst [Inhabited α] (array : List α)
    (fn : σ → α → Except JSException σ) (p s' : Nat × σ)
    (h : feBody array fn p = .ok s') : s'.1 = p.1 + 1 := by
  rw [feBody_apply] at h
  rcases hf : fn p.2 (array.getD p.1 default) with e | t <;> rw [hf] at h
  · simp at h
  · simp [Prod.ext_iff] at h
    omega

/-- When the callback succeeds on `array[i]` (acting as `g` on the
closure state), one loop step from index `i < array.length` moves to
index `i + 1` with the updated closure state. -/
theorem loop_feBody_step [Inhabited α] (array : List α)
    (fn : σ → α → Except JSException σ) (g : σ → α → σ)
    (fuel i : Nat) (s : σ) (hi : i < array.length)
    (hfn : fn s (array.getD i default) = .ok (g s (array.getD i default))) :
    scratch.loop (feCond array) (feBody array fn) (fuel + 1) (i, s)
      = scratch.loop (feCond array) (feBody array fn) fuel
          (i + 1, g s (array.getD i default)) := by
  have hbody : feBody array fn (i, s)
      = .ok (i + 1, g s (array.getD i default)) := by
    rw [feBody_apply array fn (i, s)]
    dsimp only
    rw [hfn]
  simp [scratch.loop, feCond, truthy, hi, hbody]

/-- When the index has reached the length, the loop stops at once. -/
theorem loop_feBody_stop [Inhabited α] (array : List α)
    (fn : σ → α → Except JSException σ) (fuel i : Nat) (s : σ)
    (hle : array.length ≤ i) :
    scratch.loop (feCond array) (feBody array fn) (fuel + 1) (i, s)
      = .ok (some (i, s)) := by
  have hi : ¬ i < array.length := Nat.not_lt.mpr hle
  simp [scratch.loop, feCond, truthy, hi]

/-- Main characterization: when the callback succeeds on every element
of the array (acting as `g` on the closure state), the `forEach` loop
started at index `i ≤ array.length` with enough fuel terminates at index
`array.length` having folded `g` over the elements from `i` on. -/
theorem loop_feBody_ok [Inhabited α] (array : List α)
    (fn : σ → α → Except JSException σ) (g : σ → α → σ)
    (H : ∀ (t : σ) (i : Nat), i < array.length →
      fn t (array.getD i default) = .ok (g t (array.getD i default))) :
    ∀ (fuel i : Nat) (s : σ), array.length - i < fuel → i ≤ array.length →
      scratch.loop (feCond array) (feBody array fn) fuel (i, s)
        = .ok (some (array.length, List.foldl g s (array.drop i))) := by
  intro fuel
  induction fuel with
  | zero => intro i s h _; exact absurd h (by omega)
  | succ fuel ih =>
    intro i s h hile
    by_cases hi : i < array.length
    · have hfn := H s i hi
      have h2 : array.length - (i + 1) < fuel := by omega
      rw [loop_feBody_step array fn g fuel i s hi hfn,
        ih (i + 1) (g s (array.getD i default)) h2 (by omega),
        List.drop_eq_getElem_cons hi, List.foldl_cons,
        List.getD_eq_getElem array default hi]
    · have hle : array.length ≤ i := Nat.le_of_not_lt hi
      have hieq : i = array.length := Nat.le_antisymm hile hle
      rw [loop_feBody_stop array fn fuel i s hle,
        List.drop_eq_nil_of_le hle, List.foldl_nil, hieq]

/-- `forEach` with a callback that succeeds on every element of the
array computes the left fold of its effect on the closure state. -/
theorem forEach_ok [Inhabited α] (array : List α)
    (fn : σ → α → Except JSException σ) (g : σ → α → σ)
    (H : ∀ (t : σ) (i : Nat), i < array.length →
      fn t (array.getD i default) = .ok (g t (array.getD i default)))
    (fuel : Nat) (s : σ) (hfuel : array.length < fuel) :
    scratch.forEach array fn fuel s = .ok (some (List.foldl g s array)) := by
  rw [forEach_eq_loop,
    loop_feBody_ok array fn g H fuel 0 s (by omega) (Nat.zero_le _)]
  simp [Except.map]

/-- With enough fuel, the result of the `forEach` loop does not depend
on the exact fuel value (for an arbitrary, possibly failing callback). -/
theorem loop_feBody_fuel_irrel [Inhabited α] (array : List α)
    (fn : σ → α → Except JSException σ) :
    ∀ (fuel₁ fuel₂ i : Nat) (s : σ),
      array.length - i < fuel₁ → array.length - i < fuel₂ →
      scratch.loop (feCond array) (feBody array fn) fuel₁ (i, s)
        = scratch.loop (feCond array) (feBody array fn) fuel₂ (i, s) := by
  intro fuel₁
  induction fuel₁ with
  | zero => intro fuel₂ i s h1 _; exact absurd h1 (by omega)
  | succ f ih =>
    intro fuel₂ i s h1 h2
    cases fuel₂ with
    | zero => exact absurd h2 (by omega)
    | succ f2 =>
      by_cases hi : i < array.length
      · rcases hb : feBody array fn (i, s) with e | s'
        · have herr : ∀ fl, scratch.loop (feCond array) (feBody array fn) (fl + 1) (i, s)
              = .error e := by
            intro fl
            simp [scratch.loop, feCond, truthy, hi, hb]
          rw [herr f, herr f2]
        · have hstep : ∀ fl, scratch.loop (feCond array) (feBody array fn) (fl + 1) (i, s)
              = scratch.loop (feCond array) (feBody array fn) fl s' := by
            intro fl
            simp [scratch.loop, feCond, truthy, hi, hb]
          rw [hstep f, hstep f2]
          have hfst : s'.1 = i + 1 := feBody_ok_fst array fn (i, s) s' hb
          exact ih f2 s'.1 s'.2 (by omega) (by omega)
      · have hle : array.length ≤ i := Nat.le_of_not_lt hi
        rw [loop_feBody_stop array fn f i s hle, loop_feBody_stop array fn f2 i s hle]

/-- With enough fuel, `forEach` does not depend on the fuel value. -/
theorem forEach_fuel_irrel [Inhabited α] (array : List α)
    (fn : σ → α → Except JSException σ) (fuel₁ fuel₂ : Nat) (s : σ)
    (h₁ : array.length < fuel₁) (h₂ : array.length < fuel₂) :
    scratch.forEach array fn fuel₁ s = scratch.forEach array fn fuel₂ s := by
  rw [forEach_eq_loop, forEach_eq_loop,
    loop_feBody_fuel_irrel array fn fuel₁ fuel₂ 0 s (by omega) (by omega)]

/-- Folding "append the image of the element" is `List.map`. -/
theorem foldl_push_map (f : α → β) :
    ∀ (array : List α) (acc : List β),
      List.foldl (fun r element => r ++ [f element]) acc array
        = acc ++ array.map f := by
  intro array
  induction array with
  | nil => intro acc; simp
  | cons a l ih => intro acc; simp [ih]

/-- Folding "append the element when it satisfies `q`" is
`List.filter`. -/
theorem foldl_push_filter (q : α → Bool) :
    ∀ (array : List α) (acc : List α),
      List.foldl (fun r element => if q element then r ++ [element] else r)
          acc array
        = acc ++ array.filter q := by
  intro array
  induction array with
  | nil => intro acc; simp
  | cons a l ih =>
    intro acc
    by_cases hq : q a <;> simp [hq, ih]

/-- `reduce` with an aggregator that succeeds on every element of the
array (acting as `g`) returns the left fold of `g`. -/
theorem reduce_ok [Inhabited α] (array : List α)
    (aggregator : β → α → Except JSException β) (g : β → α → β)
    (H : ∀ (t : β) (i : Nat), i < array.length →
      aggregator t (array.getD i default) = .ok (g t (array.getD i default)))
    (memo : β) (fuel : Nat) (hfuel : array.length < fuel) :
    scratch.reduce array aggregator memo fuel
      = .ok (some (List.foldl g memo array)) :=
  forEach_ok array (fun m element => aggregator m element) g H fuel memo hfuel

/-- `map` with a selector that succeeds on every element of the array
(acting as `f`) returns `List.map f`. -/
theorem map_ok [Inhabited α] (array : List α)
    (selector : α → Except JSException β) (f : α → β)
    (Hsel : ∀ i : Nat, i < array.length →
      selector (array.getD i default) = .ok (f (array.getD i default)))
    (fuel : Nat) (hfuel : array.length < fuel) :
    scratch.map array selector fuel = .ok (some (array.map f)) := by
  unfold scratch.map
  have hfold : array.map f
      = List.foldl (fun r element => r ++ [f element]) [] array := by
    rw [foldl_push_map f array]
    simp
  rw [hfold]
  apply reduce_ok array _ (fun r element => r ++ [f element]) _ [] fuel hfuel
  intro t i hi
  dsimp only
  rw [Hsel i hi]

/-- `filter` with a predicate that succeeds on every element of the
array (acting as `q`) returns `List.filter` of the truthiness of `q`. -/
theorem filter_ok [Inhabited α] (array : List α)
    (predicate : α → Except JSException JSVal) (q : α → JSVal)
    (Hpred : ∀ i : Nat, i < array.length →
      predicate (array.getD i default) = .ok (q (array.getD i default)))
    (fuel : Nat) (hfuel : array.length < fuel) :
    scratch.filter array predicate fuel
      = .ok (some (array.filter (fun element => truthy (q element)))) := by
  unfold scratch.filter
  have hfold : array.filter (fun element => truthy (q element))
      = List.foldl
          (fun r element => if truthy (q element) then r ++ [element] else r)
          [] array := by
    rw [foldl_push_filter _ array]
    simp
  rw [hfold]
  apply reduce_ok array _
    (fun r element => if truthy (q element) then r ++ [element] else r) _
    [] fuel hfuel
  intro t i hi
  dsimp only
  rw [Hpred i hi]

/-- Writing back the element already stored leaves the list unchanged. -/
theorem set_getD_self (d : γ) :
    ∀ (l : List γ) (r : Nat), r < l.length → l.set r (l.getD r d) = l := by
  intro l
  induction l with
  | nil => intro r h; simp at h
  | cons a t ih =>
    intro r h
    cases r with
    | zero => simp
    | succ r =>
      simp only [List.getD_cons_succ, List.set_cons_succ, List.cons.injEq,
        true_and]
      exact ih r (by simpa using h)

/-- Reading back an element just written. -/
theorem getD_set_self (d v : γ) (l : List γ) (r : Nat) (h : r < l.length) :
    (l.set r v).getD r d = v := by
  have h2 : r < (l.set r v).length := by simpa using h
  rw [List.getD_eq_getElem _ d h2, List.getElem_set_self]

/-- Folding Map's heap aggregator over an array: every step returns the
same array reference, and that one array ends holding the old contents
followed by the mapped elements. -/
theorem foldl_mapAggregator (selector : α → β) :
    ∀ (array : List α) (h : Heap β) (r : Nat), r < h.length →
      array.foldl (mapAggregator selector) (h, r)
        = (h.set r (h.getD r [] ++ array.map selector), r) := by
  intro array
  induction array with
  | nil =>
    intro h r hr
    rw [List.foldl_nil, List.map_nil, List.append_nil, set_getD_self _ h r hr]
  | cons a t ih =>
    intro h r hr
    rw [List.foldl_cons]
    have hstep : mapAggregator selector (h, r) a
        = (h.set r (h.getD r [] ++ [selector a]), r) := rfl
    rw [hstep, ih (h.set r (h.getD r [] ++ [selector a])) r (by simpa using hr),
      getD_set_self _ _ h r hr, List.set_set]
    simp [List.append_assoc]

/-- Folding Filter's heap aggregator over an array: every step returns
the same array reference, and that one array ends holding the old
contents followed by the kept elements. -/
theorem foldl_filterAggregator (predicate : α → Bool) :
    ∀ (array : List α) (h : Heap α) (r : Nat), r < h.length →
      array.foldl (filterAggregator predicate) (h, r)
        = (h.set r (h.getD r [] ++ array.filter predicate), r) := by
  intro array
  induction array with
  | nil =>
    intro h r hr
    rw [List.foldl_nil, List.filter_nil, List.append_nil, set_getD_self _ h r hr]
  | cons a t ih =>
    intro h r hr
    rw [List.foldl_cons]
    by_cases hq : predicate a
    · have hstep : filterAggregator predicate (h, r) a
          = (h.set r (h.getD r [] ++ [a]), r) := by
        simp [filterAggregator, pushAt, hq]
      rw [hstep, ih (h.set r (h.getD r [] ++ [a])) r (by simpa using hr),
        getD_set_self _ _ h r hr, List.set_set]
      simp [List.filter_cons, hq, List.append_assoc]
    · have hstep : filterAggregator predicate (h, r) a = (h, r) := by
        simp [filterAggregator, hq]
      rw [hstep, ih h r hr]
      simp [List.filter_cons, hq]

/-! ## Claims -/

/-- C1: for every sequence `array` and callback acting as `F` on its
closure state, `forEach` invokes the callback exactly `array.length`
times, on indices in strictly ascending order with argument `array[i]`
on the i-th call: the final closure state is the left fold of `F` over
the array, and a callback that records its argument per invocation
records exactly the array itself, in order. (`forEach` produces no value
of its own: only the threaded closure state comes back.  The sequence is
an immutable value here, so the claim's proviso that the callback not
change its length holds by construction.) -/
theorem forEach_invokes_in_order [Inhabited α] (array : List α)
    (F : σ → α → σ) (fuel : Nat) (s : σ) (hfuel : array.length < fuel) :
    scratch.forEach array (fun t element => .ok (F t element)) fuel s
      = .ok (some (List.foldl F s array))
    ∧ scratch.forEach array (fun calls element => .ok (calls ++ [element]))
        fuel ([] : List α)
      = .ok (some array) := by
  constructor
  · exact forEach_ok array (fun t element => .ok (F t element)) F
      (fun t i hi => rfl) fuel s hfuel
  · have h := forEach_ok array
      (fun calls element => .ok (calls ++ [element]))
      (fun calls element => calls ++ [element])
      (fun t i hi => rfl) fuel ([] : List α) hfuel
    have h2 := foldl_push_map (fun x : α => x) array []
    simp at h2
    rw [h, h2]

/-- Witness for C1 on a concrete array. -/
theorem forEach_invokes_in_order_witness :
    scratch.forEach [JSVal.num 10, JSVal.num 20]
        (fun calls element => .ok (calls ++ [element])) 3 ([] : List JSVal)
      = .ok (some [JSVal.num 10, JSVal.num 20]) :=
  (forEach_invokes_in_order [JSVal.num 10, JSVal.num 20]
    (fun (calls : List JSVal) element => calls ++ [element]) 3 []
    (by decide)).2

/-- C2: `reduce` folds the sequence left-to-right, replacing the
accumulator with `aggregator(memo, element)` at each element, and
returns the final accumulator; on the empty sequence it returns the
initial accumulator unchanged, for an arbitrary aggregator (even one
that would fail, since it is never invoked). -/
theorem reduce_folds_left [Inhabited α] (array : List α) (g : β → α → β)
    (memo : β) (fuel : Nat) (hfuel : array.length < fuel) :
    scratch.reduce array (fun m element => .ok (g m element)) memo fuel
      = .ok (some (List.foldl g memo array))
    ∧ ∀ (aggregator : γ → α → Except JSException γ) (m0 : γ) (fuel' : Nat),
        0 < fuel' →
        scratch.reduce ([] : List α) aggregator m0 fuel' = .ok (some m0) := by
  constructor
  · exact reduce_ok array (fun m element => .ok (g m element)) g
      (fun t i hi => rfl) memo fuel hfuel
  · intro aggregator m0 fuel' h0
    cases fuel' with
    | zero => exact absurd h0 (by omega)
    | succ f => rfl

/-- Witness for C2: the spec's `reduce([1,2,3], (a,b)=>a+b, 0) == 6`,
and the empty sequence with an always-failing aggregator. -/
theorem reduce_folds_left_witness :
    scratch.reduce [(1 : Int), 2, 3] (fun m element => .ok (m + element)) 0 4
      = .ok (some 6)
    ∧ scratch.reduce ([] : List Int)
        (fun _ _ => .error (.strVal "boom")) (7 : Int) 1 = .ok (some 7) := by
  constructor
  · exact ((reduce_folds_left (γ := Int) [(1 : Int), 2, 3]
      (fun m element => m + element) 0 4 (by decide)).1).trans rfl
  · exact (reduce_folds_left (γ := Int) [(1 : Int), 2, 3]
      (fun m element => m + element) 0 4 (by decide)).2
      (fun _ _ => .error (.strVal "boom")) 7 1 (by decide)

/-- C3: `map` returns a sequence of the same length as the input whose
i-th element is `f(array[i])`; the input sequence is an immutable value
in this embedding, so it is unchanged by construction (the source only
ever pushes onto the freshly allocated result array). -/
theorem map_pointwise [Inhabited α] (array : List α) (f : α → β)
    (fuel : Nat) (hfuel : array.length < fuel) :
    scratch.map array (fun element => .ok (f element)) fuel
      = .ok (some (array.map f))
    ∧ (array.map f).length = array.length
    ∧ ∀ i : Fin array.length,
        (array.map f).get ⟨i.1, by simp⟩ = f (array.get i) := by
  refine ⟨?_, by simp, ?_⟩
  · exact map_ok array (fun element => .ok (f element)) f
      (fun i hi => rfl) fuel hfuel
  · intro i
    simp

/-- Witness for C3: the spec's `map([1,2,3], x=>x*2)` returns
`[2,4,6]`. -/
theorem map_pointwise_witness :
    scratch.map [(1 : Int), 2, 3] (fun element => .ok (element * 2)) 4
      = .ok (some [2, 4, 6]) :=
  ((map_pointwise [(1 : Int), 2, 3] (fun element => element * 2) 4
    (by decide)).1).trans rfl

/-- C4: `filter` returns, in the original relative order, exactly those
elements on which the predicate is truthy, and the output is never
longer than the input. -/
theorem filter_keeps_truthy [Inhabited α] (array : List α) (p : α → JSVal)
    (fuel : Nat) (hfuel : array.length < fuel) :
    scratch.filter array (fun element => .ok (p element)) fuel
      = .ok (some (array.filter (fun element => truthy (p element))))
    ∧ (array.filter (fun element => truthy (p element))).length
        ≤ array.length := by
  constructor
  · exact filter_ok array (fun element => .ok (p element)) p
      (fun i hi => rfl) fuel hfuel
  · exact List.length_filter_le _ _

/-- Witness for C4: the spec's `filter([1,2,3,4], x=>x%2==0)` returns
`[2,4]`. -/
theorem filter_keeps_truthy_witness :
    scratch.filter [(1 : Int), 2, 3, 4]
        (fun element => .ok (.bool (element % 2 == 0))) 5
      = .ok (some [2, 4]) :=
  ((filter_keeps_truthy [(1 : Int), 2, 3, 4]
    (fun element => JSVal.bool (element % 2 == 0)) 5 (by decide)).1).trans rfl

/-- C5: `compact` removes exactly the entries that are loosely equal to
null (i.e. `null` and `undefined`), in order, keeping every other falsy
value: its predicate `element != null` is false exactly on `null` and
`undefined` and in particular true on `0`, `""` and `false`. -/
theorem compact_removes_only_nullish (array : List JSVal) (fuel : Nat)
    (hfuel : array.length < fuel) :
    scratch.compact array fuel
      = .ok (some (array.filter scratch.looseNeqNull))
    ∧ ∀ v : JSVal, scratch.looseNeqNull v = false
        ↔ (v = JSVal.null ∨ v = JSVal.undefined) := by
  constructor
  · exact filter_ok array
      (fun element => .ok (.bool (scratch.looseNeqNull element)))
      (fun element => .bool (scratch.looseNeqNull element))
      (fun i hi => rfl) fuel hfuel
  · intro v
    cases v <;> simp [scratch.looseNeqNull]

/-- Witness for C5: the spec's
`compact([0, null, 1, undefined, false, 2])` returns
`[0, 1, false, 2]`. -/
theorem compact_removes_only_nullish_witness :
    scratch.compact [JSVal.num 0, JSVal.null, JSVal.num 1, JSVal.undefined,
        JSVal.bool false, JSVal.num 2] 7
      = .ok (some [JSVal.num 0, JSVal.num 1, JSVal.bool false, JSVal.num 2]) :=
  ((compact_removes_only_nullish [JSVal.num 0, JSVal.null, JSVal.num 1,
    JSVal.undefined, JSVal.bool false, JSVal.num 2] 7 (by decide)).1).trans rfl

/-- C6 (counterexample): calling `scratch.while` with a non-callable
condition does fail before any body invocation, but the thrown value is
the string primitive `'Remember, you need to pass a FUNCTION to
scratch.while!'` — `throw '...'` in the source — which is not a
TypeError-class error object, contradicting the claim that the failure
is "a TypeError-class InvalidArgument error". -/
theorem loop_nonCallable_not_typeError :
    scratch.whileLoop (FnArg.nonFn JSVal.null) (fun s : Nat => .ok (s + 1)) 5 0
      = .error (.strVal "Remember, you need to pass a FUNCTION to scratch.while!")
    ∧ JSException.isTypeError
        (.strVal "Remember, you need to pass a FUNCTION to scratch.while!")
      = false :=
  ⟨rfl, rfl⟩

/-- C6 (amended): for every call to loop in which the condition argument
is not callable, the call fails by throwing the descriptive string
`'Remember, you need to pass a FUNCTION to scratch.while!'` (a string
primitive, not a TypeError-class error object), raised before any body
invocation: the result does not depend on the body, the fuel, or the
state, so no body invocation can have occurred.  The callability check
lives only in `whileLoop` (the embedding of `scratch.while`); the other
functions merely forward their condition. -/
theorem loop_nonCallable_throws_string (v : JSVal)
    (fn : σ → Except JSException σ) (fuel : Nat) (s : σ) :
    scratch.whileLoop (.nonFn v) fn fuel s
      = .error
          (.strVal "Remember, you need to pass a FUNCTION to scratch.while!") :=
  rfl

/-- C7: `scratch.for` runs `init` exactly once, before the first
condition check; on each true-condition step it runs the body `fn` and
then `update`, in that order (the composed body handed to
`scratch.while`), before the condition is re-checked; and when the
condition is false at its first check it returns at once with only
`init` having run — `update` and `fn` are never invoked. -/
theorem countedLoop_init_once_body_then_update (init update fn : σ → σ)
    (cond : σ → JSVal) (fuel : Nat) (s : σ) :
    scratch.forLoop (fun t => .ok (init t)) (.fn (fun t => .ok (cond t)))
        (fun t => .ok (update t)) (fun t => .ok (fn t)) (fuel + 1) s
      = if truthy (cond (init s)) then
          scratch.whileLoop (.fn (fun t => .ok (cond t)))
            (scratch.composeBody (fun t => .ok (fn t)) (fun t => .ok (update t)))
            fuel (update (fn (init s)))
        else .ok (some (init s)) := by
  by_cases hc : truthy (cond (init s)) <;>
    simp [scratch.forLoop, scratch.whileLoop, scratch.loop,
      scratch.composeBody, hc]

/-- C8: `pluck` returns exactly what the specification's
`Map(sequence, element => element[propertyName])` returns, for every
sequence, property name and fuel — including when a per-element property
access fails, in which case that error propagates unmodified (third
conjunct: a `null` element makes the whole call fail with the runtime's
TypeError); the second conjunct is the spec's `pluck([{a:1},{a:2}], "a")
== [1,2]` example. -/
theorem pluck_refines_spec (array : List JSVal) (property : String)
    (fuel : Nat) :
    scratch.pluck array property fuel = pluckSpec array property fuel
    ∧ scratch.pluck [JSVal.obj [("a", JSVal.num 1)],
        JSVal.obj [("a", JSVal.num 2)]] "a" 3
      = .ok (some [JSVal.num 1, JSVal.num 2])
    ∧ scratch.pluck [JSVal.num 5, JSVal.null] "a" 3
      = .error (.typeError "Cannot read properties of null (reading a)") :=
  ⟨rfl, rfl, rfl⟩

/-- C9: calling `map`, `filter`, `pluck` or `compact` twice with the
same sequence and callbacks yields equal results (any two sufficient
fuel budgets — two separate calls — give the same value, whether that
value is a success or a propagated callback error); the input sequence
is an immutable value in this embedding, and the source mutates only the
freshly allocated accumulator of each call, never the input. -/
theorem repeated_calls_agree (array : List JSVal)
    (selector : JSVal → Except JSException JSVal)
    (predicate : JSVal → Except JSException JSVal) (property : String)
    (fuel₁ fuel₂ : Nat) (h₁ : array.length < fuel₁)
    (h₂ : array.length < fuel₂) :
    scratch.map array selector fuel₁ = scratch.map array selector fuel₂
    ∧ scratch.filter array predicate fuel₁
        = scratch.filter array predicate fuel₂
    ∧ scratch.pluck array property fuel₁ = scratch.pluck array property fuel₂
    ∧ scratch.compact array fuel₁ = scratch.compact array fuel₂ := by
  refine ⟨?_, ?_, ?_, ?_⟩
  · unfold scratch.map scratch.reduce
    exact forEach_fuel_irrel array _ fuel₁ fuel₂ _ h₁ h₂
  · unfold scratch.filter scratch.reduce
    exact forEach_fuel_irrel array _ fuel₁ fuel₂ _ h₁ h₂
  · unfold scratch.pluck scratch.map scratch.reduce
    exact forEach_fuel_irrel array _ fuel₁ fuel₂ _ h₁ h₂
  · unfold scratch.compact scratch.filter scratch.reduce
    exact forEach_fuel_irrel array _ fuel₁ fuel₂ _ h₁ h₂

/-- Witness for C9 on a concrete array and two different fuel budgets. -/
theorem repeated_calls_agree_witness :
    scratch.compact [JSVal.null, JSVal.num 3] 3
      = scratch.compact [JSVal.null, JSVal.num 3] 9 :=
  (repeated_calls_agree [JSVal.null, JSVal.num 3] (fun v => .ok v)
    (fun v => .ok v) "a" 3 9 (by decide) (by decide)).2.2.2

/-- C10 (counterexample): one step of the aggregator Map hands to
Reduce, taken in a heap model of JavaScript arrays, with the empty
accumulator array at address 0 and element 3: the step returns the very
same array reference (second component 0), and the array behind that
reference has been mutated in place by `push` — its contents change from
`[]` to `[6]` — contradicting the claim that the accumulator is
"replaced … rather than mutated in place" on every step of every Reduce
call including those made internally by Map. -/
theorem mapAggregator_mutates_in_place :
    (mapAggregator (fun n : Int => n * 2) ([([] : List Int)], 0) 3).2 = 0
    ∧ (mapAggregator (fun n : Int => n * 2) ([([] : List Int)], 0) 3).1
        = [[6]]
    ∧ ¬ (([([] : List Int)] : Heap Int).getD 0 []
        = ((mapAggregator (fun n : Int => n * 2) ([([] : List Int)], 0) 3).1).getD
            0 []) := by
  refine ⟨rfl, rfl, ?_⟩
  decide

/-- C10 (amended): on every step of a Reduce call the `memo` variable is
rebound to the aggregator's return value (the fold structure of the
statement); but in the Reduce calls made internally by Map and Filter
the aggregator returns the same array reference it received, after
mutating that array in place with `push`: across the whole fold the
reference never changes, and the one array behind it accumulates the
output. -/
theorem reduce_memo_rebound_but_array_mutated (array : List α)
    (selector : α → β) (predicate : α → Bool) (hm : Heap β) (hf : Heap α)
    (rm rf : Nat) (hrm : rm < hm.length) (hrf : rf < hf.length) :
    array.foldl (mapAggregator selector) (hm, rm)
      = (hm.set rm (hm.getD rm [] ++ array.map selector), rm)
    ∧ array.foldl (filterAggregator predicate) (hf, rf)
      = (hf.set rf (hf.getD rf [] ++ array.filter predicate), rf) :=
  ⟨foldl_mapAggregator selector array hm rm hrm,
   foldl_filterAggregator predicate array hf rf hrf⟩

/-- Witness for C10's amended claim on a concrete array and heap. -/
theorem reduce_memo_rebound_but_array_mutated_witness :
    List.foldl (mapAggregator (fun n : Int => n + 1)) ([([] : List Int)], 0)
        [1, 2]
      = ([[2, 3]], 0) := by
  have h := (reduce_memo_rebound_but_array_mutated [(1 : Int), 2]
    (fun n => n + 1) (fun n => decide (0 < n)) [([] : List Int)]
    ([([] : List Int)] : Heap Int) 0 0 (by decide) (by decide)).1
  exact h.trans (by decide)
